import Mathlib

/-!
Verification of the scheduling core of `apscheduler` (file
`src/apscheduler/schedulers/async_.py`), shallowly embedded in Lean.

Timestamps and durations are integers counting microseconds, matching the
microsecond granularity of Python `datetime` / `timedelta` (the source
works with `timedelta(microseconds=1)` as its smallest unit).

The opaque trigger object is embedded as the finite list of results of its
successive `next()` calls: each call either returns an optional timestamp
or raises.  A trigger whose listed results are exhausted behaves like an
exhausted trigger, i.e. further `next()` calls return `None`.

Randomness (`random.uniform(0, x)` in the source) is embedded by passing
the random source explicitly: `draws i x` is the outcome of the i-th
`uniform(0, x)` call made for a schedule.  The semantics of `uniform` is
the predicate `UniformDraws`: every outcome lies between `min 0 x` and
`max 0 x` (Python clamps nothing, so for negative `x` the outcome lies in
`[x, 0]`).
-/

namespace Apscheduler

/-- Coalescing policy of a schedule (enum `CoalescePolicy` in the source). -/
inductive CoalescePolicy
  | earliest
  | latest
  | all
deriving DecidableEq

/-- One result of a `trigger.next()` call: a value (possibly `None`), or an
exception. -/
inductive TriggerStep
  | ok : Option Int → TriggerStep
  | err : TriggerStep
deriving DecidableEq

/-- The schedule record, with the attributes the scheduling loop reads and
writes (class `Schedule` of the source package).  Trigger state is carried
separately as a `List TriggerStep`. -/
structure Schedule where
  id : String
  taskId : String
  args : List String
  kwargs : List (String × String)
  coalesce : CoalescePolicy
  misfireGraceTime : Option Int := none
  maxJitter : Option Int := none
  tags : List String := []
  nextFireTime : Option Int := none
  lastFireTime : Option Int := none
deriving DecidableEq

/-- Modelled from the spec: `Schedule.next_deadline` is declared in the
data-model section as `next_fire_time + misfire_grace_time` when both are
present (the `Schedule` class itself lives outside the packaged source
file). -/
def Schedule.nextDeadline (s : Schedule) : Option Int :=
  match s.nextFireTime, s.misfireGraceTime with
  | some t, some g => some (t + g)
  | _, _ => none

/-- A job record as created by the scheduling loop (class `Job`). -/
structure Job where
  taskId : String
  args : List String
  kwargs : List (String × String)
  scheduleId : Option String
  scheduledFireTime : Option Int
  jitter : Int
  startDeadline : Option Int
  tags : List String
deriving DecidableEq

/-- One coalescing step of the fire-time loop (lines 343-347 of
`async_.py`): a backlog fire time `t <= now` is appended for policy `all`,
overwrites the first entry for policy `latest`, and is discarded for
policy `earliest`. -/
def applyCoalesce (c : CoalescePolicy) (fts : List (Option Int)) (t : Int) :
    List (Option Int) :=
  match c with
  | .all => fts ++ [some t]
  | .latest => fts.set 0 (some t)
  | .earliest => fts

/-- The `while True` trigger-advancement loop (lines 326-347 of
`async_.py`).  Arguments: the captured `now`, the coalesce policy, the
remaining trigger results, the accumulated `fire_times` list and the
current `schedule.next_fire_time`.  Returns the final `fire_times`, the
value `schedule.next_fire_time` holds after the loop, and whether the
trigger raised.  On a raise the loop breaks without touching
`next_fire_time`; an exhausted result list behaves like a `next()` call
returning `None`. -/
def advanceTrigger (now : Int) (c : CoalescePolicy) :
    List TriggerStep → List (Option Int) → Option Int →
    List (Option Int) × Option Int × Bool
  | [], fts, _ => (fts, none, false)
  | .err :: _, fts, nft0 => (fts, nft0, true)
  | .ok none :: _, fts, _ => (fts, none, false)
  | .ok (some t) :: rest, fts, nft0 =>
    if now < t then (fts, some t, false)
    else advanceTrigger now c rest (applyCoalesce c fts t) nft0

/-- The job-materialisation loop (lines 349-393 of `async_.py`), run on the
schedule as it stands after trigger advancement (`s1`).  `mj` is
`schedule.max_jitter.total_seconds() if schedule.max_jitter else 0`
expressed in microseconds, `draws` the random source and the first `Nat`
the loop index `i`.  For each fire time the bound is the next list entry,
or `s1.nextFireTime` for the last entry; when `mj` is nonzero and the
bound is present, the jitter is a `uniform(0, min mj (bound - ft - 1))`
draw added to the fire time.  The branch where a fire time is `none` is
unreachable from the loop (acquired schedules are due, so their
`next_fire_time` is non-null per the store contract); there the jitter
stays zero. -/
def jobFor (s1 : Schedule) (mj : Int) (draws : Nat → Int → Int) (i : Nat)
    (f : Option Int) (bound : Option Int) : Job :=
  let p : Option Int × Int :=
    if mj ≠ 0 then
      match f, bound with
      | some ft, some b =>
        let js := min mj (b - ft - 1)
        let j := draws i js
        (some (ft + j), j)
      | _, _ => (f, 0)
    else (f, 0)
  { taskId := s1.taskId
    args := s1.args
    kwargs := s1.kwargs
    scheduleId := some s1.id
    scheduledFireTime := p.1
    jitter := p.2
    startDeadline := s1.nextDeadline
    tags := s1.tags }

def buildJobs (s1 : Schedule) (mj : Int) (draws : Nat → Int → Int) :
    Nat → List (Option Int) → List Job
  | _, [] => []
  | i, f :: rest =>
    jobFor s1 mj draws i f
        (match rest with
          | b :: _ => b
          | [] => s1.nextFireTime) ::
      buildJobs s1 mj draws (i + 1) rest

/-- Processing of one acquired schedule in a loop iteration (lines 322-393
of `async_.py`): initialise `fire_times` with the current
`next_fire_time`, advance the trigger, then materialise one job per fire
time.  Returns the jobs in creation order, the schedule as handed to
`release_schedules`, and whether the trigger raised. -/
def processSchedule (now : Int) (steps : List TriggerStep)
    (draws : Nat → Int → Int) (s : Schedule) : List Job × Schedule × Bool :=
  let r := advanceTrigger now s.coalesce steps [s.nextFireTime] s.nextFireTime
  let s1 : Schedule := { s with nextFireTime := r.2.1 }
  let mj : Int := s.maxJitter.getD 0
  let jobs := buildJobs s1 mj draws 0 r.1
  let s2 : Schedule :=
    { s1 with lastFireTime :=
        match jobs.getLast? with
        | some jb => jb.scheduledFireTime
        | none => s1.lastFireTime }
  (jobs, s2, r.2.2)

/-- Modelled from the spec: `release_schedules` removes a released schedule
exactly when its `next_fire_time` is null (the data-store implementation
lives outside the packaged source file). -/
def releaseDeletes (s : Schedule) : Bool :=
  s.nextFireTime.isNone

/-- Semantics of `random.uniform(0, x)`: every outcome lies between
`min 0 x` and `max 0 x` (no clamping for negative `x`). -/
def UniformDraws (draws : Nat → Int → Int) : Prop :=
  ∀ i x, min 0 x ≤ draws i x ∧ draws i x ≤ max 0 x

/-- Classification of a trigger result at which the advancement loop stops
normally: `next()` returning `None` stops with `next_fire_time = None`,
and `next()` returning a time strictly after `now` stops with that time.
Yields `none` for results that do not stop the loop normally. -/
def termNext (now : Int) : TriggerStep → Option (Option Int)
  | .ok none => some none
  | .ok (some t) => if now < t then some (some t) else none
  | .err => none

/-- Trigger-result list consisting of a backlog of plain yields followed by
a final result. -/
def mkSteps (backlog : List Int) (term : TriggerStep) : List TriggerStep :=
  backlog.map (fun t => TriggerStep.ok (some t)) ++ [term]

/-- The result list returned by `data_store.get_schedules({id})` indexed at
0, as done by `AsyncScheduler.get_schedule` (lines 133-135): indexing an
empty Python list raises `IndexError`. -/
inductive GetScheduleResult
  | found : Schedule → GetScheduleResult
  | indexError : GetScheduleResult
deriving DecidableEq

/-- `AsyncScheduler.get_schedule`, as a function of the list the data store
returns: `return schedules[0]`. -/
def getSchedule (stored : List Schedule) : GetScheduleResult :=
  match stored with
  | [] => .indexError
  | s :: _ => .found s

/-! ## Wakeup primitive, run state and result retrieval -/

/-- The wakeup primitive (`anyio.Event`): an identity (fresh instances get
a new one) and whether it has been signalled. -/
structure WakeupState where
  eventId : Nat
  signalled : Bool
deriving DecidableEq

/-- How the bounded wait on the wakeup primitive ends: the primitive was
signalled, or `move_on_after` hit its deadline and cancelled the wait. -/
inductive WaitResult
  | signalled
  | timedOut
deriving DecidableEq

/-- The sleep step of the loop (lines 418-420 of `async_.py`): inside
`move_on_after`, the wait on the wakeup primitive is followed by the
assignment of a fresh `anyio.Event`.  When the wait ends because the
primitive was signalled, the next statement runs and installs the fresh
unsignalled primitive; when the deadline cancels the wait, the assignment
on the following line is skipped and the primitive is kept. -/
def sleepStep : WaitResult → WakeupState → WakeupState
  | .signalled, w => { eventId := w.eventId + 1, signalled := false }
  | .timedOut, w => w

/-- The run state of the scheduler (enum `RunState`). -/
inductive SchedRunState
  | stopped
  | starting
  | started
  | stopping
deriving DecidableEq

/-- The scheduler fields touched by `stop()`. -/
structure SchedulerCtl where
  state : SchedRunState
  wakeup : WakeupState
deriving DecidableEq

/-- A started scheduler with the unsignalled wakeup primitive 0, used as
a concrete state. -/
def startedCtl : SchedulerCtl :=
  { state := SchedRunState.started
    wakeup := { eventId := 0, signalled := false } }

/-- Events the scheduler publishes. -/
inductive SchedulerEvent
  | schedulerStarted
  | schedulerStopped
deriving DecidableEq

/-- `AsyncScheduler.stop` (lines 241-251): only in the `started` state it
moves to `stopping` and signals the wakeup primitive; it publishes no
event. -/
def stopCall (c : SchedulerCtl) : SchedulerCtl :=
  if c.state = SchedRunState.started then
    { c with
      state := SchedRunState.stopping
      wakeup := { c.wakeup with signalled := true } }
  else c

/-- `stop()` repeated `n` times. -/
def stopN : Nat → SchedulerCtl → SchedulerCtl
  | 0, c => c
  | n + 1, c => stopN n (stopCall c)

/-- The `finally` block of `_run` (lines 428-442), reached exactly once
when the loop exits: the state becomes `stopped` and a single
`SchedulerStopped` event is published. -/
def loopExit (c : SchedulerCtl) : SchedulerCtl × List SchedulerEvent :=
  ({ c with state := SchedRunState.stopped },
    [SchedulerEvent.schedulerStopped])

/-- The events published by a sequence of `n` `stop()` calls followed by
the loop exit: each `stop()` publishes nothing and the exit publishes
one `SchedulerStopped`. -/
def stopTraceEvents : Nat → SchedulerCtl → List SchedulerEvent
  | 0, c => (loopExit c).2
  | n + 1, c => [] ++ stopTraceEvents n (stopCall c)

/-- The outcomes of `JobResult` (enum `JobOutcome`). -/
inductive JobOutcome
  | success
  | error
  | missedStartDeadline
  | cancelled
deriving DecidableEq

/-- A stored job result (class `JobResult`), reduced to the fields
`get_job_result` inspects. -/
structure JobResult where
  jobId : Nat
  outcome : JobOutcome
deriving DecidableEq

/-- The interactions `get_job_result` has with the data store: the result
read at the first query, the job ids for which a `JobReleased` event is
delivered to the subscription taken out before that query, and the result
read again after the wait. -/
structure ResultStoreView where
  resultAtQuery : Option JobResult
  releasedEvents : List Nat
  resultAfterWait : Option JobResult
deriving DecidableEq

/-- The possible outcomes of `get_job_result`: a result, the
`JobLookupError` raise, the `assert isinstance` failure after the wait,
or blocking forever because no matching event arrives. -/
inductive GetJobResultOutcome
  | ok : JobResult → GetJobResultOutcome
  | lookupError
  | assertionFailed
  | blocked
deriving DecidableEq

/-- `AsyncScheduler.get_job_result` (lines 173-200): subscribe to
`JobReleased` filtered to `jobId`, query the store; return a present
result; otherwise raise `JobLookupError` when not waiting; otherwise wait
for the filtered event and re-read the store, asserting the re-read
result is present. -/
def getJobResult (jobId : Nat) (wait : Bool) (w : ResultStoreView) :
    GetJobResultOutcome :=
  match w.resultAtQuery with
  | some r => .ok r
  | none =>
    if wait = false then .lookupError
    else if jobId ∈ w.releasedEvents then
      match w.resultAfterWait with
      | some r => .ok r
      | none => .assertionFailed
    else .blocked

/-! ## Helper lemmas -/

/-- On reaching a normally terminating trigger result, the loop stops with
the classified next fire time and no error. -/
lemma advanceTrigger_term (now : Int) (c : CoalescePolicy) (term : TriggerStep)
    (nf : Option Int) (fts : List (Option Int)) (nft0 : Option Int)
    (hterm : termNext now term = some nf) :
    advanceTrigger now c [term] fts nft0 = (fts, nf, false) := by
  cases term with
  | err => simp [termNext] at hterm
  | ok o =>
    cases o with
    | none =>
      simp [termNext] at hterm
      simp [advanceTrigger, hterm]
    | some t =>
      by_cases h : now < t
      · simp [termNext, h] at hterm
        simp [advanceTrigger, h, hterm]
      · simp [termNext, h] at hterm

/-- A normally terminating result yielding a time is strictly after `now`. -/
lemma termNext_some_lt (now : Int) (term : TriggerStep) (v : Int)
    (hterm : termNext now term = some (some v)) : now < v := by
  cases term with
  | err => simp [termNext] at hterm
  | ok o =>
    cases o with
    | none => simp [termNext] at hterm
    | some t =>
      by_cases h : now < t
      · simp [termNext, h] at hterm
        omega
      · simp [termNext, h] at hterm

/-- Advancement over a backlog with policy `all` appends every backlog
entry to the accumulated list. -/
lemma advanceTrigger_all (now : Int) (term : TriggerStep) (nf : Option Int)
    (hterm : termNext now term = some nf) :
    ∀ (backlog : List Int) (acc : List (Option Int)) (nft0 : Option Int),
      (∀ t ∈ backlog, t ≤ now) →
      advanceTrigger now .all (mkSteps backlog term) acc nft0 =
        (acc ++ backlog.map some, nf, false) := by
  intro backlog
  induction backlog with
  | nil =>
    intro acc nft0 _
    simpa [mkSteps] using advanceTrigger_term now .all term nf acc nft0 hterm
  | cons t ts ih =>
    intro acc nft0 hb
    have ht : ¬ now < t := by
      have := hb t (by simp)
      omega
    have hstep : advanceTrigger now .all (mkSteps (t :: ts) term) acc nft0 =
        advanceTrigger now .all (mkSteps ts term)
          (applyCoalesce .all acc t) nft0 := by
      simp [mkSteps, advanceTrigger, ht]
    rw [hstep, ih (applyCoalesce .all acc t) nft0
      (fun x hx => hb x (by simp [hx]))]
    simp [applyCoalesce]

/-- Advancement over a backlog with policy `latest` collapses the list to
the last backlog entry (or the original entry when the backlog is empty). -/
lemma advanceTrigger_latest (now : Int) (term : TriggerStep) (nf : Option Int)
    (hterm : termNext now term = some nf) :
    ∀ (backlog : List Int) (a : Int) (nft0 : Option Int),
      (∀ t ∈ backlog, t ≤ now) →
      advanceTrigger now .latest (mkSteps backlog term) [some a] nft0 =
        ([some (backlog.getLastD a)], nf, false) := by
  intro backlog
  induction backlog with
  | nil =>
    intro a nft0 _
    simpa [mkSteps] using
      advanceTrigger_term now .latest term nf [some a] nft0 hterm
  | cons t ts ih =>
    intro a nft0 hb
    have ht : ¬ now < t := by
      have := hb t (by simp)
      omega
    have hstep : advanceTrigger now .latest (mkSteps (t :: ts) term)
        [some a] nft0 =
        advanceTrigger now .latest (mkSteps ts term) [some t] nft0 := by
      simp [mkSteps, advanceTrigger, ht, applyCoalesce]
    rw [hstep, ih t nft0 (fun x hx => hb x (by simp [hx])),
      List.getLastD_cons]

/-- Advancement over a backlog with policy `earliest` leaves the
accumulated list untouched. -/
lemma advanceTrigger_earliest (now : Int) (term : TriggerStep)
    (nf : Option Int) (hterm : termNext now term = some nf) :
    ∀ (backlog : List Int) (acc : List (Option Int)) (nft0 : Option Int),
      (∀ t ∈ backlog, t ≤ now) →
      advanceTrigger now .earliest (mkSteps backlog term) acc nft0 =
        (acc, nf, false) := by
  intro backlog
  induction backlog with
  | nil =>
    intro acc nft0 _
    simpa [mkSteps] using
      advanceTrigger_term now .earliest term nf acc nft0 hterm
  | cons t ts ih =>
    intro acc nft0 hb
    have ht : ¬ now < t := by
      have := hb t (by simp)
      omega
    simp only [mkSteps, List.map_cons, List.cons_append, advanceTrigger, ht,
      if_false]
    have := ih (applyCoalesce .earliest acc t) nft0
      (fun x hx => hb x (by simp [hx]))
    simp only [mkSteps] at this
    simpa [applyCoalesce] using this

/-- `getLastD` picks a member of the list headed by the default. -/
lemma getLastD_mem (l : List Int) (a : Int) : l.getLastD a ∈ a :: l := by
  induction l generalizing a with
  | nil => simp
  | cons c l' ih =>
    rw [List.getLastD_cons]
    rcases (List.mem_cons).1 (ih c) with h | h
    · rw [h]
      exact List.mem_cons_of_mem _ (List.mem_cons_self _ _)
    · exact List.mem_cons_of_mem _ (List.mem_cons_of_mem _ h)

/-- In a list sorted by `≤`, every element is at most the last element. -/
lemma sorted_le_getLastD (l : List Int) (a : Int)
    (hs : List.Sorted (· ≤ ·) (a :: l)) :
    ∀ b ∈ a :: l, b ≤ l.getLastD a := by
  induction l generalizing a with
  | nil =>
    intro b hb
    simp at hb
    simp [hb]
  | cons c l' ih =>
    intro b hb
    have hs' : List.Sorted (· ≤ ·) (c :: l') := hs.of_cons
    have hac : a ≤ c := (List.sorted_cons.1 hs).1 c (by simp)
    simp only [List.getLastD_cons]
    rcases (List.mem_cons).1 hb with h | h
    · have hc := ih c hs' c (by simp)
      omega
    · exact ih c hs' b h

/-- One-step unfolding of the job-materialisation loop. -/
lemma buildJobs_cons_eq (s1 : Schedule) (mj : Int) (draws : Nat → Int → Int)
    (i : Nat) (f : Option Int) (rest : List (Option Int)) :
    buildJobs s1 mj draws i (f :: rest) =
      jobFor s1 mj draws i f
          (match rest with
            | b :: _ => b
            | [] => s1.nextFireTime) ::
        buildJobs s1 mj draws (i + 1) rest := rfl

/-- The job built with active jitter and a present bound. -/
lemma jobFor_some_bound (s1 : Schedule) (mj : Int) (draws : Nat → Int → Int)
    (i : Nat) (ft b : Int) (h : mj ≠ 0) :
    jobFor s1 mj draws i (some ft) (some b) =
      { taskId := s1.taskId, args := s1.args, kwargs := s1.kwargs,
        scheduleId := some s1.id,
        scheduledFireTime := some (ft + draws i (min mj (b - ft - 1))),
        jitter := draws i (min mj (b - ft - 1)),
        startDeadline := s1.nextDeadline, tags := s1.tags } := by
  simp [jobFor, h]

/-- The job built with active jitter but no bound: the jitter stays
zero. -/
lemma jobFor_none_bound (s1 : Schedule) (mj : Int) (draws : Nat → Int → Int)
    (i : Nat) (ft : Int) (h : mj ≠ 0) :
    jobFor s1 mj draws i (some ft) none =
      { taskId := s1.taskId, args := s1.args, kwargs := s1.kwargs,
        scheduleId := some s1.id, scheduledFireTime := some ft, jitter := 0,
        startDeadline := s1.nextDeadline, tags := s1.tags } := by
  simp [jobFor, h]

/-- The job built with jitter disabled. -/
lemma jobFor_zero (s1 : Schedule) (draws : Nat → Int → Int) (i : Nat)
    (f bound : Option Int) :
    jobFor s1 0 draws i f bound =
      { taskId := s1.taskId, args := s1.args, kwargs := s1.kwargs,
        scheduleId := some s1.id, scheduledFireTime := f, jitter := 0,
        startDeadline := s1.nextDeadline, tags := s1.tags } := by
  simp [jobFor]

/-- Jobs are materialised one per fire time. -/
lemma buildJobs_length (s1 : Schedule) (mj : Int) (draws : Nat → Int → Int) :
    ∀ (i : Nat) (fts : List (Option Int)),
      (buildJobs s1 mj draws i fts).length = fts.length := by
  intro i fts
  induction fts generalizing i with
  | nil => simp [buildJobs]
  | cons f rest ih => simp [buildJobs, ih]

/-- With `max_jitter` absent (so `mj = 0`) the jobs carry exactly the
computed fire times. -/
lemma buildJobs_no_jitter (s1 : Schedule) (draws : Nat → Int → Int) :
    ∀ (i : Nat) (fts : List (Option Int)),
      (buildJobs s1 0 draws i fts).map (fun jb => jb.scheduledFireTime) =
        fts := by
  intro i fts
  induction fts generalizing i with
  | nil => simp [buildJobs]
  | cons f rest ih => simp [buildJobs, jobFor, ih]

/-- Every materialised job records the `next_deadline` of the schedule as
it stands after trigger advancement. -/
lemma buildJobs_startDeadline (s1 : Schedule) (mj : Int)
    (draws : Nat → Int → Int) :
    ∀ (i : Nat) (fts : List (Option Int)),
      ∀ jb ∈ buildJobs s1 mj draws i fts, jb.startDeadline = s1.nextDeadline := by
  intro i fts
  induction fts generalizing i with
  | nil => simp [buildJobs]
  | cons f rest ih =>
    intro jb hjb
    simp only [buildJobs, List.mem_cons] at hjb
    rcases hjb with h | h
    · rw [h]
      simp [jobFor]
    · exact ih (i + 1) jb h

/-- A trigger-advancement run that sets the error flag must have hit an
`err` result; when the flag is clear the resulting `next_fire_time` is
`None` or strictly after `now`. -/
lemma advanceTrigger_no_err (now : Int) (c : CoalescePolicy) :
    ∀ (steps : List TriggerStep) (acc : List (Option Int)) (nft0 : Option Int),
      (advanceTrigger now c steps acc nft0).2.2 = false →
      (advanceTrigger now c steps acc nft0).2.1 = none ∨
        ∃ t, (advanceTrigger now c steps acc nft0).2.1 = some t ∧ now < t := by
  intro steps
  induction steps with
  | nil =>
    intro acc nft0 _
    left
    rfl
  | cons st rest ih =>
    intro acc nft0 he
    cases st with
    | err => simp [advanceTrigger] at he
    | ok o =>
      cases o with
      | none =>
        left
        rfl
      | some t =>
        by_cases h : now < t
        · right
          exact ⟨t, by simp [advanceTrigger, h], h⟩
        · have := ih (applyCoalesce c acc t) nft0
            (by simpa [advanceTrigger, h] using he)
          simpa [advanceTrigger, h] using this

/-- The last element of a list is a member. -/
lemma mem_of_getLastQ (l : List Int) (x : Int) (h : l.getLast? = some x) :
    x ∈ l := by
  induction l with
  | nil => cases h
  | cons a l' ih =>
    cases l' with
    | nil =>
      simp [List.getLast?] at h
      simp [h]
    | cons b l'' =>
      rw [List.getLast?_cons_cons] at h
      exact List.mem_cons_of_mem _ (ih h)

/-- Appending the optional new `next_fire_time` after a strictly increasing
fire-time list keeps it strictly increasing, as long as the list stays at
or before `now` and the new fire time is after `now`. -/
lemma chainQ_append_nf (now : Int) (L : List Int) (nf : Option Int)
    (hL : List.Chain' (· < ·) L) (hle : ∀ x ∈ L, x ≤ now)
    (hnf : ∀ v, nf = some v → now < v) :
    List.Chain' (· < ·) (L ++ nf.toList) := by
  cases nf with
  | none => simpa using hL
  | some v =>
    rw [List.chain'_append]
    refine ⟨hL, by simp, ?_⟩
    intro x hx y hy
    simp only [Option.toList_some, List.head?_cons, Option.mem_def,
      Option.some.injEq] at hy
    have hxL : x ∈ L := mem_of_getLastQ L x hx
    have h1 := hle x hxL
    have h2 := hnf v rfl
    omega

/-- For a backlog of yields at or before `now` ending in a normally
terminating result, the advancement loop produces, for every policy, a
fire-time list of plain timestamps drawn from the due time and the
backlog, staying strictly increasing when the input was, together with
the classified new `next_fire_time` and a clear error flag. -/
lemma advance_fire_times (now t0 : Int) (backlog : List Int)
    (term : TriggerStep) (nf : Option Int) (c : CoalescePolicy)
    (hb : ∀ t ∈ backlog, t ≤ now)
    (hterm : termNext now term = some nf) :
    ∃ L : List Int,
      advanceTrigger now c (mkSteps backlog term) [some t0] (some t0) =
        (L.map some, nf, false) ∧
      (∀ x ∈ L, x ∈ t0 :: backlog) ∧
      (List.Chain' (· < ·) (t0 :: backlog) → List.Chain' (· < ·) L) := by
  cases c with
  | all =>
    refine ⟨t0 :: backlog, ?_, fun x hx => hx, fun h => h⟩
    rw [advanceTrigger_all now term nf hterm backlog [some t0] (some t0) hb]
    simp
  | latest =>
    refine ⟨[backlog.getLastD t0], ?_, ?_, fun _ => List.chain'_singleton _⟩
    · rw [advanceTrigger_latest now term nf hterm backlog t0 (some t0) hb]
      simp
    · intro x hx
      rw [List.mem_singleton] at hx
      rw [hx]
      exact getLastD_mem backlog t0
  | earliest =>
    refine ⟨[t0], ?_, ?_, fun _ => List.chain'_singleton _⟩
    · rw [advanceTrigger_earliest now term nf hterm backlog [some t0]
        (some t0) hb]
      simp
    · intro x hx
      simp at hx
      simp [hx]

/-- Soundness of the jitter computation over a strictly increasing
fire-time list: pairing each materialised job with its fire time and its
bound (the next fire time in the list, or the new `next_fire_time` for
the last entry), the jitter of every job lies in
`[0, min mj (bound - fire - 1)]`, the recorded `scheduled_fire_time` is
the fire time plus the jitter, and it stays strictly below the bound;
with no bound the jitter is zero. -/
lemma buildJobs_sound (s1 : Schedule) (mj : Int) (draws : Nat → Int → Int)
    (hmj : 0 < mj) (hdr : UniformDraws draws) :
    ∀ (L : List Int) (i : Nat),
      List.Chain' (· < ·) (L ++ s1.nextFireTime.toList) →
      ∀ p ∈ (buildJobs s1 mj draws i (L.map some)).zip
          (L.zip (L.tail.map some ++ [s1.nextFireTime])),
        0 ≤ p.1.jitter ∧ p.1.jitter ≤ mj ∧
        (∀ b, p.2.2 = some b →
          p.1.jitter ≤ b - p.2.1 - 1 ∧
          p.1.scheduledFireTime = some (p.2.1 + p.1.jitter) ∧
          p.2.1 + p.1.jitter < b) ∧
        (p.2.2 = none →
          p.1.jitter = 0 ∧ p.1.scheduledFireTime = some p.2.1) := by
  intro L
  induction L with
  | nil =>
    intro i _ p hp
    simp at hp
  | cons f L' ih =>
    intro i hch p hp
    have hmjne : mj ≠ 0 := by omega
    rw [List.map_cons, buildJobs_cons_eq] at hp
    cases L' with
    | nil =>
      simp only [List.map_nil, buildJobs, List.tail_cons, List.nil_append,
        List.zip_cons_cons, List.zip_nil_right, List.mem_singleton] at hp
      cases hnft : s1.nextFireTime with
      | none =>
        rw [hnft] at hp
        subst hp
        rw [jobFor_none_bound s1 mj draws i f hmjne]
        dsimp only
        refine ⟨le_refl 0, le_of_lt hmj, ?_, fun _ => ⟨rfl, rfl⟩⟩
        intro b hb
        cases hb
      | some v =>
        have hfv : f < v := by
          rw [hnft] at hch
          simpa using hch
        have hjs : 0 ≤ min mj (v - f - 1) ∧ min mj (v - f - 1) ≤ mj ∧
            min mj (v - f - 1) ≤ v - f - 1 :=
          ⟨le_min (by omega) (by omega), min_le_left _ _, min_le_right _ _⟩
        have hd := hdr i (min mj (v - f - 1))
        rw [min_eq_left hjs.1, max_eq_right hjs.1] at hd
        rw [hnft] at hp
        subst hp
        rw [jobFor_some_bound s1 mj draws i f v hmjne]
        dsimp only
        refine ⟨hd.1, by omega, ?_, by intro h; cases h⟩
        intro b hb
        injection hb with hb
        subst hb
        refine ⟨by omega, rfl, by omega⟩
    | cons g L'' =>
      have hfg : f < g := by
        simp only [List.cons_append, List.chain'_cons] at hch
        exact hch.1
      have hch' : List.Chain' (· < ·) ((g :: L'') ++ s1.nextFireTime.toList) := by
        simp only [List.cons_append, List.chain'_cons] at hch ⊢
        exact hch.2
      simp only [List.map_cons, List.tail_cons, List.cons_append,
        List.zip_cons_cons, List.mem_cons] at hp
      rcases hp with hp | hp
      · have hjs : 0 ≤ min mj (g - f - 1) ∧ min mj (g - f - 1) ≤ mj ∧
            min mj (g - f - 1) ≤ g - f - 1 :=
          ⟨le_min (by omega) (by omega), min_le_left _ _, min_le_right _ _⟩
        have hd := hdr i (min mj (g - f - 1))
        rw [min_eq_left hjs.1, max_eq_right hjs.1] at hd
        subst hp
        rw [jobFor_some_bound s1 mj draws i f g hmjne]
        dsimp only
        refine ⟨hd.1, by omega, ?_, by intro h; cases h⟩
        intro b hb
        injection hb with hb
        subst hb
        refine ⟨by omega, rfl, by omega⟩
      · exact ih (i + 1) hch' p hp

/-- With the advanced `next_fire_time` present, every materialised job
carries a `scheduled_fire_time` strictly before it, for every fire-time
list of timestamps strictly before it (no monotonicity needed: a negative
jitter draw only moves fire times earlier). -/
lemma buildJobs_sft_lt (s1 : Schedule) (mj : Int) (draws : Nat → Int → Int)
    (hdr : UniformDraws draws) (v : Int) (hnft : s1.nextFireTime = some v) :
    ∀ (L : List Int) (i : Nat), (∀ x ∈ L, x < v) →
      ∀ jb ∈ buildJobs s1 mj draws i (L.map some),
        ∃ t, jb.scheduledFireTime = some t ∧ t < v := by
  intro L
  induction L with
  | nil =>
    intro i _ jb hjb
    simp [buildJobs] at hjb
  | cons f L' ih =>
    intro i hL jb hjb
    have hf : f < v := hL f (by simp)
    rw [List.map_cons, buildJobs_cons_eq, List.mem_cons] at hjb
    rcases hjb with h | h
    · rcases eq_or_ne mj 0 with hmj | hmj
      · subst hmj
        rw [jobFor_zero] at h
        exact ⟨f, by rw [h], hf⟩
      · cases L' with
        | nil =>
          simp only [List.map_nil] at h
          rw [hnft, jobFor_some_bound s1 mj draws i f v hmj] at h
          have hd := hdr i (min mj (v - f - 1))
          have hjsr : min mj (v - f - 1) ≤ v - f - 1 := min_le_right _ _
          rcases max_choice (0 : Int) (min mj (v - f - 1)) with hmax | hmax
          · rw [hmax] at hd
            exact ⟨f + draws i (min mj (v - f - 1)), by rw [h], by omega⟩
          · rw [hmax] at hd
            exact ⟨f + draws i (min mj (v - f - 1)), by rw [h], by omega⟩
        | cons g L'' =>
          have hg : g < v := hL g (by simp)
          simp only [List.map_cons] at h
          rw [jobFor_some_bound s1 mj draws i f g hmj] at h
          have hd := hdr i (min mj (g - f - 1))
          have hjsr : min mj (g - f - 1) ≤ g - f - 1 := min_le_right _ _
          rcases max_choice (0 : Int) (min mj (g - f - 1)) with hmax | hmax
          · rw [hmax] at hd
            exact ⟨f + draws i (min mj (g - f - 1)), by rw [h], by omega⟩
          · rw [hmax] at hd
            exact ⟨f + draws i (min mj (g - f - 1)), by rw [h], by omega⟩
    · exact ih (i + 1) (fun x hx => hL x (by simp [hx])) jb h

/-! ## Claims -/

/-- Claim C1 (code bug): the spec says a schedule whose trigger raises is
abandoned with no job created and released with `next_fire_time = null`.
In the source the `break` on the exception (line 336) falls through to the
job-materialisation loop, which still creates a job from the accumulated
`fire_times` (at least the due fire time), and `next_fire_time` is left
unchanged, so `release_schedules` does not delete the schedule.  The log
message of the handler itself says the schedule is being removed.  At a
due schedule whose trigger raises on the first `next()` call: the error
flag is set, one job is created, and the released schedule keeps its old
`next_fire_time`. -/
theorem trigger_error_keeps_schedule_and_creates_job :
    (processSchedule 100 [TriggerStep.err] (fun _ _ => 0)
        { id := "s1", taskId := "t1", args := [], kwargs := [],
          coalesce := .latest, misfireGraceTime := none, maxJitter := none,
          tags := [], nextFireTime := some 70,
          lastFireTime := none }).2.2 = true ∧
    (processSchedule 100 [TriggerStep.err] (fun _ _ => 0)
        { id := "s1", taskId := "t1", args := [], kwargs := [],
          coalesce := .latest, misfireGraceTime := none, maxJitter := none,
          tags := [], nextFireTime := some 70,
          lastFireTime := none }).1.length = 1 ∧
    (processSchedule 100 [TriggerStep.err] (fun _ _ => 0)
        { id := "s1", taskId := "t1", args := [], kwargs := [],
          coalesce := .latest, misfireGraceTime := none, maxJitter := none,
          tags := [], nextFireTime := some 70,
          lastFireTime := none }).2.1.nextFireTime = some 70 ∧
    releaseDeletes
      (processSchedule 100 [TriggerStep.err] (fun _ _ => 0)
        { id := "s1", taskId := "t1", args := [], kwargs := [],
          coalesce := .latest, misfireGraceTime := none, maxJitter := none,
          tags := [], nextFireTime := some 70,
          lastFireTime := none }).2.1 = false := by
  refine ⟨rfl, rfl, rfl, rfl⟩

/-- Claim C10: `get_schedule` returns the first element of the list the
store returns; on an empty result list the indexing raises `IndexError`
(it neither returns a null value nor raises a lookup error). -/
theorem get_schedule_indexes_head (stored : List Schedule) :
    (∀ s rest, stored = s :: rest → getSchedule stored = .found s) ∧
    (stored = [] → getSchedule stored = .indexError) := by
  constructor
  · intro s rest h
    rw [h]
    rfl
  · intro h
    rw [h]
    rfl

/-- Witness for C10 at concrete inputs: a singleton store result yields its
schedule, an empty result yields the index error. -/
theorem get_schedule_indexes_head_witness :
    getSchedule [] = .indexError ∧
    getSchedule
        [{ id := "x", taskId := "t", args := [], kwargs := [],
           coalesce := .latest, misfireGraceTime := none, maxJitter := none,
           tags := [], nextFireTime := some 5, lastFireTime := none }] =
      .found
        { id := "x", taskId := "t", args := [], kwargs := [],
          coalesce := .latest, misfireGraceTime := none, maxJitter := none,
          tags := [], nextFireTime := some 5, lastFireTime := none } := by
  refine ⟨(get_schedule_indexes_head []).2 rfl, ?_⟩
  exact (get_schedule_indexes_head _).1 _ [] rfl

/-- Claim C2: for a due schedule whose trigger yields a non-decreasing
backlog of missed fire times (every value at most `now`) and then stops
normally, the fire-time engine produces: for `latest` a single fire time
equal to the maximum of the backlog set `B` (the original
`next_fire_time` followed by the backlog yields); for `all` exactly the
list `B` in yield order; for `earliest` the single original
`next_fire_time`, the minimum of `B`.  One job is materialised per
produced fire time, and with `max_jitter` absent the jobs carry exactly
those fire times. -/
theorem coalesce_policy_backlog (now t0 : Int) (backlog : List Int)
    (term : TriggerStep) (nf : Option Int) (s : Schedule)
    (draws : Nat → Int → Int)
    (hnft : s.nextFireTime = some t0)
    (hb : ∀ t ∈ backlog, t ≤ now)
    (hsort : List.Sorted (· ≤ ·) (t0 :: backlog))
    (hterm : termNext now term = some nf) :
    (processSchedule now (mkSteps backlog term) draws s).1.length =
      (advanceTrigger now s.coalesce (mkSteps backlog term)
        [some t0] (some t0)).1.length ∧
    (s.maxJitter = none →
      (processSchedule now (mkSteps backlog term) draws s).1.map
          (fun jb => jb.scheduledFireTime) =
        (advanceTrigger now s.coalesce (mkSteps backlog term)
          [some t0] (some t0)).1) ∧
    (s.coalesce = .latest →
      ∃ m, (advanceTrigger now s.coalesce (mkSteps backlog term)
              [some t0] (some t0)).1 = [some m] ∧
        m ∈ t0 :: backlog ∧ ∀ b ∈ t0 :: backlog, b ≤ m) ∧
    (s.coalesce = .all →
      (advanceTrigger now s.coalesce (mkSteps backlog term)
        [some t0] (some t0)).1 = (t0 :: backlog).map some) ∧
    (s.coalesce = .earliest →
      (advanceTrigger now s.coalesce (mkSteps backlog term)
          [some t0] (some t0)).1 = [some t0] ∧
        ∀ b ∈ t0 :: backlog, t0 ≤ b) := by
  refine ⟨?_, ?_, ?_, ?_, ?_⟩
  · simp only [processSchedule, hnft]
    exact buildJobs_length _ _ _ _ _
  · intro hmj
    simp only [processSchedule, hnft, hmj, Option.getD_none]
    exact buildJobs_no_jitter _ _ _ _
  · intro hc
    rw [hc, advanceTrigger_latest now term nf hterm backlog t0 (some t0) hb]
    exact ⟨backlog.getLastD t0, rfl, getLastD_mem _ _,
      sorted_le_getLastD _ _ hsort⟩
  · intro hc
    rw [hc, advanceTrigger_all now term nf hterm backlog [some t0]
      (some t0) hb]
    simp
  · intro hc
    rw [hc, advanceTrigger_earliest now term nf hterm backlog [some t0]
      (some t0) hb]
    refine ⟨rfl, ?_⟩
    intro b hbm
    rcases (List.mem_cons).1 hbm with h | h
    · omega
    · exact (List.sorted_cons.1 hsort).1 b h

/-- Witness for C2 at a concrete backlog: schedule due at 70, backlog
80, 90 (all at most now = 100), trigger then yields 160. -/
theorem coalesce_policy_backlog_witness :
    (∀ t ∈ ([80, 90] : List Int), t ≤ 100) ∧
    (advanceTrigger 100 CoalescePolicy.all
        (mkSteps [80, 90] (TriggerStep.ok (some 160)))
        [some 70] (some 70)).1 = ([70, 80, 90] : List Int).map some ∧
    (processSchedule 100 (mkSteps [80, 90] (TriggerStep.ok (some 160)))
        (fun _ _ => 0)
        { id := "w2", taskId := "t2", args := [], kwargs := [],
          coalesce := .all, misfireGraceTime := none, maxJitter := none,
          tags := [], nextFireTime := some 70,
          lastFireTime := none }).1.map (fun jb => jb.scheduledFireTime) =
      (advanceTrigger 100 CoalescePolicy.all
        (mkSteps [80, 90] (TriggerStep.ok (some 160)))
        [some 70] (some 70)).1 := by
  have h := coalesce_policy_backlog 100 70 [80, 90]
    (TriggerStep.ok (some 160)) (some 160)
    { id := "w2", taskId := "t2", args := [], kwargs := [],
      coalesce := .all, misfireGraceTime := none, maxJitter := none,
      tags := [], nextFireTime := some 70, lastFireTime := none }
    (fun _ _ => 0) rfl (by decide) (by decide) (by decide)
  exact ⟨by decide, h.2.2.2.1 rfl, h.2.1 rfl⟩

/-- Claim C9: when trigger advancement for a schedule succeeds (no raise),
the `next_fire_time` handed to `release_schedules` is null or strictly
after `now`; hence for a due schedule (`next_fire_time <= now` per the
store contract for acquired schedules) the persisted value strictly
increases. -/
theorem released_nft_future_or_none (now : Int) (steps : List TriggerStep)
    (draws : Nat → Int → Int) (s : Schedule)
    (herr : (processSchedule now steps draws s).2.2 = false) :
    ((processSchedule now steps draws s).2.1.nextFireTime = none ∨
      ∃ t, (processSchedule now steps draws s).2.1.nextFireTime = some t ∧
        now < t) ∧
    (∀ t0 t, s.nextFireTime = some t0 → t0 ≤ now →
      (processSchedule now steps draws s).2.1.nextFireTime = some t →
        t0 < t) := by
  have h1 : (processSchedule now steps draws s).2.1.nextFireTime =
      (advanceTrigger now s.coalesce steps [s.nextFireTime]
        s.nextFireTime).2.1 := rfl
  have h2 : (processSchedule now steps draws s).2.2 =
      (advanceTrigger now s.coalesce steps [s.nextFireTime]
        s.nextFireTime).2.2 := rfl
  rw [h2] at herr
  have hres := advanceTrigger_no_err now s.coalesce steps [s.nextFireTime]
    s.nextFireTime herr
  constructor
  · rw [h1]
    exact hres
  · intro t0 t h0 hle hsome
    rw [h1] at hsome
    rcases hres with h | ⟨t', ht', hlt⟩
    · rw [h] at hsome
      cases hsome
    · rw [ht'] at hsome
      injection hsome with he
      omega

/-- Witness for C9: a due schedule (fire time 70, now 100) whose trigger
yields 160 is released with the strictly later fire time. -/
theorem released_nft_future_or_none_witness :
    ((processSchedule 100 [TriggerStep.ok (some 160)] (fun _ _ => 0)
        { id := "w9", taskId := "t9", args := [], kwargs := [],
          coalesce := .latest, misfireGraceTime := none, maxJitter := none,
          tags := [], nextFireTime := some 70,
          lastFireTime := none }).2.1.nextFireTime = none ∨
      ∃ t, (processSchedule 100 [TriggerStep.ok (some 160)] (fun _ _ => 0)
        { id := "w9", taskId := "t9", args := [], kwargs := [],
          coalesce := .latest, misfireGraceTime := none, maxJitter := none,
          tags := [], nextFireTime := some 70,
          lastFireTime := none }).2.1.nextFireTime = some t ∧ 100 < t) ∧
    (∀ t0 t, (some 70 : Option Int) = some t0 → t0 ≤ 100 →
      (processSchedule 100 [TriggerStep.ok (some 160)] (fun _ _ => 0)
        { id := "w9", taskId := "t9", args := [], kwargs := [],
          coalesce := .latest, misfireGraceTime := none, maxJitter := none,
          tags := [], nextFireTime := some 70,
          lastFireTime := none }).2.1.nextFireTime = some t → t0 < t) :=
  released_nft_future_or_none 100 [TriggerStep.ok (some 160)] (fun _ _ => 0)
    { id := "w9", taskId := "t9", args := [], kwargs := [],
      coalesce := .latest, misfireGraceTime := none, maxJitter := none,
      tags := [], nextFireTime := some 70, lastFireTime := none } rfl

/-- Claim C6 counterexample: the spec says that when the first
`trigger.next()` call returns a time strictly after `now` the engine
yields zero fire times and no job is created.  In the source `fire_times`
is initialised with the due `next_fire_time` before the trigger is ever
called (line 324), so exactly one job is created for the due time. -/
theorem future_first_fire_creates_job_cex :
    (processSchedule 100 [TriggerStep.ok (some 160)] (fun _ _ => 0)
        { id := "s6", taskId := "t6", args := [], kwargs := [],
          coalesce := .latest, misfireGraceTime := none, maxJitter := none,
          tags := [], nextFireTime := some 70,
          lastFireTime := none }).1.length = 1 ∧
    (processSchedule 100 [TriggerStep.ok (some 160)] (fun _ _ => 0)
        { id := "s6", taskId := "t6", args := [], kwargs := [],
          coalesce := .latest, misfireGraceTime := none, maxJitter := none,
          tags := [], nextFireTime := some 70,
          lastFireTime := none }).1.map (fun jb => jb.scheduledFireTime) =
      [some 70] ∧
    (processSchedule 100 [TriggerStep.ok (some 160)] (fun _ _ => 0)
        { id := "s6", taskId := "t6", args := [], kwargs := [],
          coalesce := .latest, misfireGraceTime := none, maxJitter := none,
          tags := [], nextFireTime := some 70,
          lastFireTime := none }).2.1.nextFireTime = some 160 := by
  refine ⟨rfl, rfl, rfl⟩

/-- Claim C6 as amended: when the first `trigger.next()` call returns a
time strictly after `now`, the engine yields exactly one fire time (the
original due `next_fire_time`), exactly one job is created for it, and
the schedule keeps the returned future time as its new
`next_fire_time`. -/
theorem future_first_fire_single_job (now t0 tf : Int)
    (rest : List TriggerStep) (s : Schedule) (draws : Nat → Int → Int)
    (hnft : s.nextFireTime = some t0) (hfut : now < tf) :
    (processSchedule now (TriggerStep.ok (some tf) :: rest) draws s).1.length
        = 1 ∧
    (processSchedule now (TriggerStep.ok (some tf) :: rest) draws
        s).2.1.nextFireTime = some tf ∧
    ∀ jb ∈ (processSchedule now (TriggerStep.ok (some tf) :: rest) draws s).1,
      jb.scheduledFireTime = some (t0 + jb.jitter) := by
  have hadv : advanceTrigger now s.coalesce
      (TriggerStep.ok (some tf) :: rest) [s.nextFireTime] s.nextFireTime =
      ([some t0], some tf, false) := by
    rw [hnft]
    simp [advanceTrigger, hfut]
  refine ⟨?_, ?_, ?_⟩
  · simp only [processSchedule, hadv]
    rfl
  · simp only [processSchedule, hadv]
  · intro jb hjb
    simp only [processSchedule, hadv] at hjb
    by_cases hmj : s.maxJitter.getD 0 = 0
    · simp [buildJobs, jobFor, hmj] at hjb
      simp [hjb]
    · simp [buildJobs, jobFor, hmj] at hjb
      simp [hjb]

/-- Witness for C6 as amended: due at 70, now 100, trigger yields 160. -/
theorem future_first_fire_single_job_witness :
    (100 : Int) < 160 ∧
    ((processSchedule 100 [TriggerStep.ok (some 160)] (fun _ _ => 0)
        { id := "w6", taskId := "t6", args := [], kwargs := [],
          coalesce := .all, misfireGraceTime := none, maxJitter := some 5,
          tags := [], nextFireTime := some 70,
          lastFireTime := none }).1.length = 1 ∧
      (processSchedule 100 [TriggerStep.ok (some 160)] (fun _ _ => 0)
        { id := "w6", taskId := "t6", args := [], kwargs := [],
          coalesce := .all, misfireGraceTime := none, maxJitter := some 5,
          tags := [], nextFireTime := some 70,
          lastFireTime := none }).2.1.nextFireTime = some 160 ∧
      ∀ jb ∈ (processSchedule 100 [TriggerStep.ok (some 160)] (fun _ _ => 0)
        { id := "w6", taskId := "t6", args := [], kwargs := [],
          coalesce := .all, misfireGraceTime := none, maxJitter := some 5,
          tags := [], nextFireTime := some 70,
          lastFireTime := none }).1,
        jb.scheduledFireTime = some (70 + jb.jitter)) :=
  ⟨by decide,
    future_first_fire_single_job 100 70 160 []
      { id := "w6", taskId := "t6", args := [], kwargs := [],
        coalesce := .all, misfireGraceTime := none, maxJitter := some 5,
        tags := [], nextFireTime := some 70, lastFireTime := none }
      (fun _ _ => 0) rfl (by decide)⟩

/-- Claim C3 counterexample: the spec says the jitter interval upper end
is clamped to be nonnegative, so the recorded jitter is never negative
and a jittered fire time stays strictly before the following fire time.
The source computes `jitter_s = min(max_jitter, bound - fire - 1us)` with
no clamping (lines 367-376), and `random.uniform(0, jitter_s)` with a
negative `jitter_s` yields values in `[jitter_s, 0]`.  With policy `all`
and a trigger yielding the same backlog time twice, the middle fire time
has bound equal to itself, `jitter_s = -1`, and the lower-endpoint
outcome of the uniform draw records a negative jitter on the job. -/
theorem jitter_negative_draw_cex :
    UniformDraws (fun _ x => min 0 x) ∧
    (processSchedule 100
        [TriggerStep.ok (some 80), TriggerStep.ok (some 80),
          TriggerStep.ok (some 160)]
        (fun _ x => min 0 x)
        { id := "s3", taskId := "t3", args := [], kwargs := [],
          coalesce := .all, misfireGraceTime := none, maxJitter := some 5,
          tags := [], nextFireTime := some 70,
          lastFireTime := none }).1.map (fun jb => jb.jitter) =
      [0, -1, 0] := by
  refine ⟨fun i x => ⟨le_refl _, min_le_max⟩, by decide⟩

/-- Claim C3 as amended: assuming fire times are strictly increasing at
microsecond granularity (the due time, the backlog yields and the new
`next_fire_time` form a strictly increasing chain), for every outcome of
the uniform random source the jitter recorded on each job lies in
`[0, min max_jitter (bound - fire - 1)]`, where the bound is the next
fire time in the list or the new `next_fire_time` for the last entry, the
recorded `scheduled_fire_time` is the fire time plus the jitter, and it
stays strictly below the bound; without a bound the jitter is zero.
Without the strictness assumption the source can record a negative
jitter, as the counterexample shows. -/
theorem jitter_bounds_strict_chain (now t0 mj : Int) (backlog : List Int)
    (term : TriggerStep) (nf : Option Int) (s : Schedule)
    (draws : Nat → Int → Int)
    (hnft : s.nextFireTime = some t0) (hmj : s.maxJitter = some mj)
    (hpos : 0 < mj) (ht0 : t0 ≤ now) (hb : ∀ t ∈ backlog, t ≤ now)
    (hchain : List.Chain' (· < ·) (t0 :: backlog))
    (hterm : termNext now term = some nf)
    (hdr : UniformDraws draws) :
    ∃ L : List Int,
      advanceTrigger now s.coalesce (mkSteps backlog term) [some t0]
          (some t0) = (L.map some, nf, false) ∧
      (processSchedule now (mkSteps backlog term) draws s).2.1.nextFireTime
          = nf ∧
      ∀ p ∈ ((processSchedule now (mkSteps backlog term) draws s).1).zip
          (L.zip (L.tail.map some ++ [nf])),
        0 ≤ p.1.jitter ∧ p.1.jitter ≤ mj ∧
        (∀ b, p.2.2 = some b →
          p.1.jitter ≤ b - p.2.1 - 1 ∧
          p.1.scheduledFireTime = some (p.2.1 + p.1.jitter) ∧
          p.2.1 + p.1.jitter < b) ∧
        (p.2.2 = none →
          p.1.jitter = 0 ∧ p.1.scheduledFireTime = some p.2.1) := by
  obtain ⟨L, hadv, hmem, hchL⟩ :=
    advance_fire_times now t0 backlog term nf s.coalesce hb hterm
  have hnfteq : (processSchedule now (mkSteps backlog term) draws
      s).2.1.nextFireTime =
      (advanceTrigger now s.coalesce (mkSteps backlog term) [s.nextFireTime]
        s.nextFireTime).2.1 := rfl
  rw [hnft, hadv] at hnfteq
  have hjobs : (processSchedule now (mkSteps backlog term) draws s).1 =
      buildJobs
        { s with nextFireTime :=
            (advanceTrigger now s.coalesce (mkSteps backlog term)
              [s.nextFireTime] s.nextFireTime).2.1 }
        (s.maxJitter.getD 0) draws 0
        (advanceTrigger now s.coalesce (mkSteps backlog term)
          [s.nextFireTime] s.nextFireTime).1 := rfl
  rw [hnft, hadv] at hjobs
  simp only [hmj, Option.getD_some] at hjobs
  refine ⟨L, hadv, hnfteq, ?_⟩
  rw [hjobs]
  have hle : ∀ x ∈ L, x ≤ now := by
    intro x hx
    rcases (List.mem_cons).1 (hmem x hx) with h | h
    · omega
    · exact hb x h
  have hchain2 : List.Chain' (· < ·) (L ++ nf.toList) := by
    refine chainQ_append_nf now L nf (hchL hchain) hle ?_
    intro v hv
    have hterm2 := hterm
    rw [hv] at hterm2
    exact termNext_some_lt now term v hterm2
  exact buildJobs_sound
    { s with nextFireTime := nf, maxJitter := some mj } mj draws hpos hdr
    L 0 hchain2

/-- Witness for C3 as amended: strictly increasing fire times 70, 80, 90
with the trigger then yielding 160, `max_jitter = 5`, and the random
source that always returns zero. -/
theorem jitter_bounds_strict_chain_witness :
    (0 : Int) < 5 ∧
    ∃ L : List Int,
      advanceTrigger 100 CoalescePolicy.all
          (mkSteps [80, 90] (TriggerStep.ok (some 160))) [some 70]
          (some 70) = (L.map some, some 160, false) ∧
      (processSchedule 100 (mkSteps [80, 90] (TriggerStep.ok (some 160)))
          (fun _ _ => 0)
          { id := "w3", taskId := "t3", args := [], kwargs := [],
            coalesce := .all, misfireGraceTime := none, maxJitter := some 5,
            tags := [], nextFireTime := some 70,
            lastFireTime := none }).2.1.nextFireTime = some 160 ∧
      ∀ p ∈ ((processSchedule 100
            (mkSteps [80, 90] (TriggerStep.ok (some 160))) (fun _ _ => 0)
            { id := "w3", taskId := "t3", args := [], kwargs := [],
              coalesce := .all, misfireGraceTime := none,
              maxJitter := some 5, tags := [], nextFireTime := some 70,
              lastFireTime := none }).1).zip
          (L.zip (L.tail.map some ++ [some 160])),
        0 ≤ p.1.jitter ∧ p.1.jitter ≤ 5 ∧
        (∀ b, p.2.2 = some b →
          p.1.jitter ≤ b - p.2.1 - 1 ∧
          p.1.scheduledFireTime = some (p.2.1 + p.1.jitter) ∧
          p.2.1 + p.1.jitter < b) ∧
        (p.2.2 = none →
          p.1.jitter = 0 ∧ p.1.scheduledFireTime = some p.2.1) :=
  ⟨by decide,
    jitter_bounds_strict_chain 100 70 5 [80, 90]
      (TriggerStep.ok (some 160)) (some 160)
      { id := "w3", taskId := "t3", args := [], kwargs := [],
        coalesce := .all, misfireGraceTime := none, maxJitter := some 5,
        tags := [], nextFireTime := some 70, lastFireTime := none }
      (fun _ _ => 0) rfl rfl (by decide) (by decide) (by decide) (by simp)
      (by decide) (fun _ x => ⟨min_le_left 0 x, le_max_left 0 x⟩)⟩

/-- Claim C4 counterexample: the spec says a job carries the schedule
`next_deadline` as it was at entry, before `next_fire_time` is advanced.
The source sets `schedule.next_fire_time` to the new value inside the
advancement loop (line 340) before the jobs are built, and
`next_deadline` is derived from the current `next_fire_time`, so the job
records the deadline of the advanced schedule.  Due at 70 with grace 10
(entry deadline 80), trigger yielding 160: the job records deadline
170. -/
theorem start_deadline_entry_cex :
    (processSchedule 100 [TriggerStep.ok (some 160)] (fun _ _ => 0)
        { id := "s4", taskId := "t4", args := [], kwargs := [],
          coalesce := .latest, misfireGraceTime := some 10,
          maxJitter := none, tags := [], nextFireTime := some 70,
          lastFireTime := none }).1.map (fun jb => jb.startDeadline) =
      [some 170] ∧
    Schedule.nextDeadline
        { id := "s4", taskId := "t4", args := [], kwargs := [],
          coalesce := .latest, misfireGraceTime := some 10,
          maxJitter := none, tags := [], nextFireTime := some 70,
          lastFireTime := none } = some 80 :=
  ⟨rfl, rfl⟩

/-- Claim C4 as amended: every materialised job records as
`start_deadline` the `next_deadline` of the schedule as advanced (its new
`next_fire_time` plus `misfire_grace_time` when both are present,
otherwise null); when the trigger advances normally and the grace time is
nonnegative, a present `start_deadline` is at least the job
`scheduled_fire_time`. -/
theorem start_deadline_post_advance (now t0 : Int) (backlog : List Int)
    (term : TriggerStep) (nf : Option Int) (s : Schedule)
    (draws : Nat → Int → Int)
    (hnft : s.nextFireTime = some t0) (ht0 : t0 ≤ now)
    (hb : ∀ t ∈ backlog, t ≤ now)
    (hterm : termNext now term = some nf)
    (hdr : UniformDraws draws)
    (hg : ∀ g, s.misfireGraceTime = some g → 0 ≤ g) :
    (∀ jb ∈ (processSchedule now (mkSteps backlog term) draws s).1,
      jb.startDeadline =
        Schedule.nextDeadline { s with nextFireTime := nf }) ∧
    (∀ jb ∈ (processSchedule now (mkSteps backlog term) draws s).1,
      ∀ d, jb.startDeadline = some d →
        ∃ t, jb.scheduledFireTime = some t ∧ t ≤ d) := by
  obtain ⟨L, hadv, hmem, _⟩ :=
    advance_fire_times now t0 backlog term nf s.coalesce hb hterm
  have hjobs : (processSchedule now (mkSteps backlog term) draws s).1 =
      buildJobs
        { s with nextFireTime :=
            (advanceTrigger now s.coalesce (mkSteps backlog term)
              [s.nextFireTime] s.nextFireTime).2.1 }
        (s.maxJitter.getD 0) draws 0
        (advanceTrigger now s.coalesce (mkSteps backlog term)
          [s.nextFireTime] s.nextFireTime).1 := rfl
  rw [hnft, hadv] at hjobs
  dsimp only at hjobs
  constructor
  · intro jb hjb
    rw [hjobs] at hjb
    exact buildJobs_startDeadline _ _ _ 0 _ jb hjb
  · intro jb hjb d hd
    rw [hjobs] at hjb
    have hdl := buildJobs_startDeadline _ _ _ 0 _ jb hjb
    rw [hd] at hdl
    cases hnf : nf with
    | none =>
      rw [hnf] at hdl
      simp [Schedule.nextDeadline] at hdl
    | some v =>
      cases hgr : s.misfireGraceTime with
      | none =>
        rw [hnf] at hdl
        simp [Schedule.nextDeadline, hgr] at hdl
      | some g =>
        rw [hnf] at hdl
        simp only [Schedule.nextDeadline, hgr, Option.some.injEq] at hdl
        have hL : ∀ x ∈ L, x < v := by
          intro x hx
          have hterm2 := hterm
          rw [hnf] at hterm2
          have hv := termNext_some_lt now term v hterm2
          rcases (List.mem_cons).1 (hmem x hx) with h | h
          · omega
          · have := hb x h
            omega
        have hlt := buildJobs_sft_lt { s with nextFireTime := nf }
          (s.maxJitter.getD 0) draws hdr v (by rw [hnf]) L 0 hL jb hjb
        obtain ⟨t, hsft, htv⟩ := hlt
        have hg0 := hg g hgr
        exact ⟨t, hsft, by omega⟩

/-- Witness for C4 as amended: due at 70 with grace 10 and jitter cap 5,
backlog 80, 90, trigger then yielding 160. -/
theorem start_deadline_post_advance_witness :
    (0 : Int) ≤ 10 ∧
    (∀ jb ∈ (processSchedule 100
          (mkSteps [80, 90] (TriggerStep.ok (some 160))) (fun _ _ => 0)
          { id := "w4", taskId := "t4", args := [], kwargs := [],
            coalesce := .all, misfireGraceTime := some 10,
            maxJitter := some 5, tags := [], nextFireTime := some 70,
            lastFireTime := none }).1,
      jb.startDeadline =
        Schedule.nextDeadline
          { id := "w4", taskId := "t4", args := [], kwargs := [],
            coalesce := .all, misfireGraceTime := some 10,
            maxJitter := some 5, tags := [], nextFireTime := some 160,
            lastFireTime := none }) ∧
    (∀ jb ∈ (processSchedule 100
          (mkSteps [80, 90] (TriggerStep.ok (some 160))) (fun _ _ => 0)
          { id := "w4", taskId := "t4", args := [], kwargs := [],
            coalesce := .all, misfireGraceTime := some 10,
            maxJitter := some 5, tags := [], nextFireTime := some 70,
            lastFireTime := none }).1,
      ∀ d, jb.startDeadline = some d →
        ∃ t, jb.scheduledFireTime = some t ∧ t ≤ d) :=
  ⟨by decide,
    (start_deadline_post_advance 100 70 [80, 90]
      (TriggerStep.ok (some 160)) (some 160)
      { id := "w4", taskId := "t4", args := [], kwargs := [],
        coalesce := .all, misfireGraceTime := some 10, maxJitter := some 5,
        tags := [], nextFireTime := some 70, lastFireTime := none }
      (fun _ _ => 0) rfl (by decide) (by decide) (by decide)
      (fun _ x => ⟨min_le_left 0 x, le_max_left 0 x⟩)
      (by intro g h; injection h with h; omega)).1,
    (start_deadline_post_advance 100 70 [80, 90]
      (TriggerStep.ok (some 160)) (some 160)
      { id := "w4", taskId := "t4", args := [], kwargs := [],
        coalesce := .all, misfireGraceTime := some 10, maxJitter := some 5,
        tags := [], nextFireTime := some 70, lastFireTime := none }
      (fun _ _ => 0) rfl (by decide) (by decide) (by decide)
      (fun _ x => ⟨min_le_left 0 x, le_max_left 0 x⟩)
      (by intro g h; injection h with h; omega)).2⟩

/-- Claim C5 counterexample: the spec says the wakeup primitive is
replaced with a fresh instance after every wait, whether it ends by
timeout or by signal.  In the source the replacement statement lives
inside the `move_on_after` block after the `await`, so a timeout cancels
the wait and skips it: the primitive with identity 0 is kept as is. -/
theorem wakeup_kept_on_timeout_cex :
    sleepStep WaitResult.timedOut { eventId := 0, signalled := false } =
      { eventId := 0, signalled := false } := rfl

/-- Claim C5 as amended: the wakeup primitive is replaced with a fresh
unsignalled instance exactly when the wait ends by being signalled; on a
timeout the wait was cancelled before the replacement ran and the
primitive is kept — but a wait can only time out while the primitive is
unsignalled, so the next iteration still never observes a stale
signal. -/
theorem wakeup_fresh_on_signal (o : WaitResult) (w : WakeupState)
    (hto : o = WaitResult.timedOut → w.signalled = false) :
    (sleepStep o w).signalled = false ∧
    (o = WaitResult.signalled →
      (sleepStep o w).eventId = w.eventId + 1) ∧
    (o = WaitResult.timedOut → sleepStep o w = w) := by
  cases o with
  | signalled =>
    refine ⟨rfl, fun _ => rfl, ?_⟩
    intro h
    cases h
  | timedOut =>
    refine ⟨hto rfl, ?_, fun _ => rfl⟩
    intro h
    cases h

/-- Witness for C5 as amended: a signalled wait on the primitive with
identity 3 installs the fresh unsignalled primitive 4. -/
theorem wakeup_fresh_on_signal_witness :
    (sleepStep WaitResult.signalled { eventId := 3, signalled := true
      }).signalled = false ∧
    (WaitResult.signalled = WaitResult.signalled →
      (sleepStep WaitResult.signalled { eventId := 3, signalled := true
        }).eventId = 3 + 1) ∧
    (WaitResult.signalled = WaitResult.timedOut →
      sleepStep WaitResult.signalled { eventId := 3, signalled := true } =
        { eventId := 3, signalled := true }) :=
  wakeup_fresh_on_signal WaitResult.signalled
    { eventId := 3, signalled := true } (by intro h; cases h)

/-- Claim C8: `stop()` moves `started` to `stopping` and signals the
wakeup primitive; in every other state it changes nothing; it is
idempotent; `n` calls with `n` at least one act like a single call; and
the events of `n` `stop()` calls followed by the loop exit contain
exactly one `SchedulerStopped`. -/
theorem stop_idempotent (c : SchedulerCtl) (n : Nat) (hn : 1 ≤ n) :
    (c.state = SchedRunState.started →
      stopCall c =
        { c with
          state := SchedRunState.stopping
          wakeup := { c.wakeup with signalled := true } }) ∧
    (c.state ≠ SchedRunState.started → stopCall c = c) ∧
    stopCall (stopCall c) = stopCall c ∧
    stopN n c = stopCall c ∧
    (stopTraceEvents n c).count SchedulerEvent.schedulerStopped = 1 := by
  have hne : ∀ x : SchedulerCtl, x.state ≠ SchedRunState.started →
      stopCall x = x := by
    intro x hx
    rw [stopCall, if_neg hx]
  have hst : ∀ x : SchedulerCtl, x.state = SchedRunState.started →
      (stopCall x).state = SchedRunState.stopping := by
    intro x hx
    rw [stopCall, if_pos hx]
  have hfix : ∀ x : SchedulerCtl, stopCall (stopCall x) = stopCall x := by
    intro x
    by_cases hx : x.state = SchedRunState.started
    · apply hne (stopCall x)
      rw [hst x hx]
      decide
    · rw [hne x hx, hne x hx]
  have hstopN : ∀ (m : Nat) (x : SchedulerCtl),
      stopN m (stopCall x) = stopCall x := by
    intro m
    induction m with
    | zero => intro x; rfl
    | succ k ih =>
      intro x
      rw [stopN, hfix]
      exact ih x
  have hcount : ∀ (m : Nat) (x : SchedulerCtl),
      (stopTraceEvents m x).count SchedulerEvent.schedulerStopped = 1 := by
    intro m
    induction m with
    | zero => intro x; rfl
    | succ k ih =>
      intro x
      rw [stopTraceEvents, List.nil_append]
      exact ih (stopCall x)
  refine ⟨?_, ?_, hfix c, ?_, hcount n c⟩
  · intro h
    rw [stopCall, if_pos h]
  · intro h
    rw [stopCall, if_neg h]
  · obtain ⟨m, rfl⟩ : ∃ m, n = m + 1 :=
      ⟨n - 1, by omega⟩
    rw [stopN]
    exact hstopN m c

/-- Witness for C8: three `stop()` calls from the `started` state. -/
theorem stop_idempotent_witness :
    (startedCtl.state = SchedRunState.started →
      stopCall startedCtl =
        { startedCtl with
          state := SchedRunState.stopping
          wakeup := { startedCtl.wakeup with signalled := true } }) ∧
    (startedCtl.state ≠ SchedRunState.started →
      stopCall startedCtl = startedCtl) ∧
    stopCall (stopCall startedCtl) = stopCall startedCtl ∧
    stopN 3 startedCtl = stopCall startedCtl ∧
    (stopTraceEvents 3 startedCtl).count SchedulerEvent.schedulerStopped =
      1 :=
  stop_idempotent startedCtl 3 (by decide)

/-- Claim C7: `get_job_result` returns a result already stored at the
query; it raises `JobLookupError` exactly when `wait` is false and no
result is stored at the query; and with `wait` true and no stored result
it waits for the `JobReleased` event filtered to the job id (subscribed
before the query) and returns the re-read result. -/
theorem get_job_result_lookup_iff (jobId : Nat) (wait : Bool)
    (w : ResultStoreView) :
    (getJobResult jobId wait w = .lookupError ↔
      wait = false ∧ w.resultAtQuery = none) ∧
    (∀ r, w.resultAtQuery = some r → getJobResult jobId wait w = .ok r) ∧
    (wait = true → w.resultAtQuery = none → jobId ∈ w.releasedEvents →
      ∀ r, w.resultAfterWait = some r → getJobResult jobId wait w = .ok r) := by
  refine ⟨?_, ?_, ?_⟩
  · constructor
    · intro h
      cases hq : w.resultAtQuery with
      | some r =>
        rw [getJobResult, hq] at h
        cases h
      | none =>
        rw [getJobResult, hq] at h
        by_cases hw : wait = false
        · exact ⟨hw, rfl⟩
        · rw [if_neg hw] at h
          by_cases hm : jobId ∈ w.releasedEvents
          · rw [if_pos hm] at h
            cases hr : w.resultAfterWait with
            | some r => rw [hr] at h; cases h
            | none => rw [hr] at h; cases h
          · rw [if_neg hm] at h
            cases h
    · rintro ⟨hw, hq⟩
      rw [getJobResult, hq, if_pos hw]
  · intro r hq
    rw [getJobResult, hq]
  · intro hw hq hm r hr
    rw [getJobResult, hq, hw]
    simp only [Bool.true_eq_false, if_false, if_pos hm, hr]

/-- Witness for C7: a missing result with `wait = false` raises the
lookup error, a stored result is returned, and with `wait = true` the
re-read result after the matching event is returned. -/
theorem get_job_result_lookup_iff_witness :
    getJobResult 7 false
        { resultAtQuery := none, releasedEvents := [],
          resultAfterWait := none } = .lookupError ∧
    getJobResult 7 true
        { resultAtQuery := some { jobId := 7, outcome := .success },
          releasedEvents := [], resultAfterWait := none } =
      .ok { jobId := 7, outcome := .success } ∧
    getJobResult 7 true
        { resultAtQuery := none, releasedEvents := [5, 7],
          resultAfterWait := some { jobId := 7, outcome := .error } } =
      .ok { jobId := 7, outcome := .error } :=
  ⟨(get_job_result_lookup_iff 7 false
      { resultAtQuery := none, releasedEvents := [],
        resultAfterWait := none }).1.mpr ⟨rfl, rfl⟩,
    (get_job_result_lookup_iff 7 true
      { resultAtQuery := some { jobId := 7, outcome := .success },
        releasedEvents := [], resultAfterWait := none }).2.1
      { jobId := 7, outcome := .success } rfl,
    (get_job_result_lookup_iff 7 true
      { resultAtQuery := none, releasedEvents := [5, 7],
        resultAfterWait := some { jobId := 7, outcome := .error } }).2.2
      rfl rfl (by decide) { jobId := 7, outcome := .error } rfl⟩

end Apscheduler
